import Mathlib

/-!
Shallow embedding of the Wordle clone (src/src/lib.rs) in Lean 4.

Words are modelled as `List Char` (Rust iterates `str::chars()`; all words in
play are 5 ASCII characters, where byte length and character count coincide).
The `HashMap<char, u8>` of letter counts is modelled as a function
`Char → Option Nat` (`none` = key absent); with at most 5 occurrences per
letter the `u8` arithmetic never overflows, so `Nat` is exact.
The `HashSet<&str>` of allowed guesses is modelled as a `List (List Char)`
with list membership standing for set membership (the set is built from the
input slice, so memberships agree).
Panics (`assert!`, `unwrap`, `expect`) are modelled as `none` of an outer
`Option`; the `Result<_, ()>` of `Wordle::guess` is `Except Unit _`.
The `Lazy<ThreadRng>` random source is not part of the observable state; the
random draw in `choose_word` is modelled by an arbitrary index supplied by
the environment (`pick`), reduced modulo the answer-list length.
-/

namespace WordleClone

/-- `LetterStatus` from lib.rs lines 35-43. -/
inductive LetterStatus where
  /-- The guessed letter is in the correct position in the word (green). -/
  | Correct
  /-- The guessed letter is in the incorrect position, but is in the word (yellow). -/
  | InWord
  /-- The guessed letter is not in the word (gray/black). -/
  | NotInWord
deriving DecidableEq

open LetterStatus

/-- The `letter_count!` macro (lib.rs lines 24-33): fold over the characters of
`word`, starting from the empty map, reading the current count with default 0
and inserting the incremented count. -/
def letter_count (word : List Char) : Char → Option Nat :=
  word.foldl
    (fun letter_counts letter =>
      let count := (letter_counts letter).getD 0
      fun c => if c = letter then some (count + 1) else letter_counts c)
    (fun _ => none)

/-- `check_letter` (lib.rs lines 115-147).  Returns the status together with
the updated `remaining` map (the Rust function mutates it through `&mut`).
The outer `Option` is `none` exactly when the Rust code panics: the
`assert!(idx < 5)` fails, or `word.chars().nth(idx).unwrap()` finds no
character at `idx`. -/
def check_letter (word : List Char) (letter : Char) (idx : Nat)
    (remaining : Char → Option Nat) :
    Option (LetterStatus × (Char → Option Nat)) :=
  if idx < 5 then
    match remaining letter with
    | some count =>
      if count = 0 then
        some (NotInWord, remaining)  -- no occurrences remaining
      else
        -- decrement count of unguessed occurrences
        let remaining' := fun c => if c = letter then some (count - 1) else remaining c
        -- check the letter against the answer
        match word[idx]? with
        | some word_letter_at_idx =>
          if letter = word_letter_at_idx then
            some (Correct, remaining')
          else
            some (InWord, remaining')
        | none => none  -- .unwrap() panics
    | none => some (NotInWord, remaining)
  else
    none  -- assert!(idx < 5) fails

/-- The scoring loop of `Wordle::guess` (lib.rs lines 95-100): iterate over the
enumerated characters of the guess, threading the mutable `letter_counts` map
through `check_letter` and writing each status into the `statuses` array. -/
def guess_loop (answer : List Char) :
    List Char → Nat → (Char → Option Nat) → List LetterStatus →
    Option (List LetterStatus)
  | [], _, _, statuses => some statuses
  | c :: rest, i, letter_counts, statuses =>
    match check_letter answer c i letter_counts with
    | some (status, letter_counts') =>
      guess_loop answer rest (i + 1) letter_counts' (statuses.set i status)
    | none => none

/-- The scoring section of `Wordle::guess` (lib.rs lines 91-101, the part after
validation): build the letter counts of the answer and run the loop over the
guess, starting from `[LetterStatus::NotInWord; 5]`. -/
def score (answer word : List Char) : Option (List LetterStatus) :=
  let letter_counts := letter_count answer
  guess_loop answer word 0 letter_counts (List.replicate 5 NotInWord)

/-- The game-session struct `Wordle` (lib.rs lines 45-55), without the
`Lazy<ThreadRng>` field (the random source carries no observable state). -/
structure Wordle where
  /-- Acceptable guesses (a `HashSet<&str>` in the source; list membership
  models set membership). -/
  guesses : List (List Char)
  /-- Answer list. -/
  answers : List (List Char)
  /-- The currently selected word to play against. -/
  word : Option (List Char)
deriving DecidableEq

/-- `Wordle::new` (lib.rs lines 59-69): `none` models the `assert!` panics on
an empty vocabulary; otherwise the session stores both vocabularies and no
secret word. -/
def Wordle.new (guesses answers : List (List Char)) : Option Wordle :=
  if guesses.isEmpty then none
  else if answers.isEmpty then none
  else some { guesses := guesses, answers := answers, word := none }

/-- `Wordle::choose_word` (lib.rs lines 72-75): `self.answers.choose(&mut rng)`
draws a uniformly random element of the slice; the draw is modelled by the
environment-supplied `pick`, reduced modulo the length so that every index is
reachable.  `none` models the `.unwrap()` panic on an empty answer list. -/
def Wordle.choose_word (w : Wordle) (pick : Nat) : Option Wordle :=
  match w.answers[pick % w.answers.length]? with
  | some word => some { w with word := some word }
  | none => none

/-- The number of whitespace-separated fragments of a word, scanning with a
flag recording whether the previous character was part of a fragment: the
value of `word.split_whitespace().count()` in `Wordle::guess`. -/
def split_whitespace_count_aux : List Char → Bool → Nat
  | [], _ => 0
  | c :: rest, inWord =>
    if c.isWhitespace then split_whitespace_count_aux rest false
    else (if inWord then 0 else 1) + split_whitespace_count_aux rest true

/-- `word.split_whitespace().count()`: the number of maximal runs of
non-whitespace characters. -/
def split_whitespace_count (word : List Char) : Nat :=
  split_whitespace_count_aux word false

/-- `Wordle::guess` (lib.rs lines 79-105).  The outer `Option` is `none`
exactly when the Rust code panics (whitespace in the guess, guess not 5
characters, no secret chosen, or secret not 5 characters); the inner
`Except Unit` is the `Result<[LetterStatus; 5], ()>`, with `Except.error ()`
the `Err(())` returned for a guess absent from the guess vocabulary. -/
def Wordle.guess (w : Wordle) (word : List Char) :
    Option (Except Unit (List LetterStatus)) :=
  if split_whitespace_count word = 1 then
    if word.length = 5 then
      match w.word with
      | some answer =>
        if answer.length = 5 then
          -- ensure the guess is valid
          if word ∈ w.guesses then
            match score answer word with
            | some statuses => some (Except.ok statuses)
            | none => none
          else
            some (Except.error ())
        else none  -- assert_eq!(answer.len(), 5) fails
      | none => none  -- self.word.expect("Game not initialized") panics
    else none  -- assert_eq!(word.len(), 5) fails
  else none  -- whitespace assert fails

/-- A call of the method `guess` on a session: the Rust receiver is `&self`
(a shared borrow), so the session after the call is the receiver itself. -/
def Wordle.guessCall (w : Wordle) (word : List Char) :
    Option (Except Unit (List LetterStatus)) × Wordle :=
  (w.guess word, w)

/-! ## Reference scorer, following the spec's words (§4.2)

Modelled from the spec: "first build a per-letter remaining-occurrence count
from the secret word.  Then scan guess positions left to right: at position i
with letter c, if the remaining count for c is zero (or c never occurred),
mark NotInWord; otherwise decrement the remaining count for c by one, then
compare c to the secret's letter at position i: equal → Correct; not equal →
InWord."  This definition follows the spec's sentence, to be compared with
the embedding of the source. -/

/-- The left-to-right scan of the reference scorer, carrying the position `i`
and the remaining-occurrence count `rem`. -/
def refScan (secret : List Char) : List Char → Nat → (Char → Nat) → List LetterStatus
  | [], _, _ => []
  | c :: rest, i, rem =>
    if rem c = 0 then
      NotInWord :: refScan secret rest (i + 1) rem
    else
      let rem' := fun x => if x = c then rem c - 1 else rem x
      (if secret[i]? = some c then Correct else InWord)
        :: refScan secret rest (i + 1) rem'

/-- The reference scorer of the spec: scan the guess against the per-letter
occurrence counts of the secret. -/
def refScore (secret guess : List Char) : List LetterStatus :=
  refScan secret guess 0 (fun c => secret.count c)

/-- The number of positions whose guess letter is `L` and whose status is
`Correct` or `InWord`, pairing the guess letters with the statuses
positionally. -/
def creditCount (L : Char) : List Char → List LetterStatus → Nat
  | c :: cs, st :: sts =>
    (if c = L ∧ st ≠ NotInWord then 1 else 0) + creditCount L cs sts
  | _, _ => 0

/-! ## Helper lemmas -/

/-- The fold of `letter_count`, started from any map, adds the occurrence
count of each character to the map's entry (with default 0). -/
theorem letter_count_fold_getD (ws : List Char) :
    ∀ (m : Char → Option Nat) (c : Char),
      ((ws.foldl
          (fun letter_counts letter =>
            let count := (letter_counts letter).getD 0
            fun x => if x = letter then some (count + 1) else letter_counts x)
          m) c).getD 0
        = (m c).getD 0 + ws.count c := by
  induction ws with
  | nil => intro m c; simp
  | cons w rest ih =>
    intro m c
    simp only [List.foldl_cons]
    rw [ih, List.count_cons]
    by_cases h : c = w
    · subst h; simp; omega
    · have h' : ¬(w == c) := by simp [Ne.symm h]
      simp [h, h']

/-- The letter-count map of a word holds, with default 0, exactly the
occurrence counts of the word's characters. -/
theorem letter_count_getD (word : List Char) (c : Char) :
    (letter_count word c).getD 0 = word.count c := by
  unfold letter_count
  rw [letter_count_fold_getD]
  simp

/-- Setting position `i` and taking `i + 1` elements yields the first `i`
elements followed by the written value. -/
theorem take_set_succ {α : Type} :
    ∀ (l : List α) (i : Nat) (x : α), i < l.length →
      (l.set i x).take (i + 1) = l.take i ++ [x]
  | a :: tl, 0, x, _ => by simp
  | a :: tl, i + 1, x, h => by
    simp only [List.set_cons_succ, List.take_succ_cons]
    rw [take_set_succ tl i x (by simpa using h)]
    simp

/-- The reference scan produces one status per guess character. -/
theorem refScan_length (secret : List Char) :
    ∀ (cs : List Char) (i : Nat) (rem : Char → Nat),
      (refScan secret cs i rem).length = cs.length := by
  intro cs
  induction cs with
  | nil => intro i rem; simp [refScan]
  | cons c rest ih =>
    intro i rem
    by_cases h0 : rem c = 0 <;> simp [refScan, h0, ih]

/-- The scoring loop of the source agrees with the reference scan of the
spec: starting at position `i` with a counts map matching `r` (with default
0), the loop overwrites positions `i` and later of the 5-element statuses
array with the reference scan of the remaining guess characters. -/
theorem guess_loop_eq_refScan (answer : List Char) (h5 : answer.length = 5) :
    ∀ (cs : List Char) (i : Nat) (m : Char → Option Nat) (r : Char → Nat)
      (statuses : List LetterStatus),
      (∀ c, (m c).getD 0 = r c) → i + cs.length = 5 → statuses.length = 5 →
      guess_loop answer cs i m statuses
        = some (statuses.take i ++ refScan answer cs i r) := by
  intro cs
  induction cs with
  | nil =>
    intro i m r statuses hrel hlen hst
    have hi : i = 5 := by simpa using hlen
    subst hi
    simp [guess_loop, refScan, List.take_of_length_le (le_of_eq hst)]
  | cons c rest ih =>
    intro i m r statuses hrel hlen hst
    have hlen' : (i + 1) + rest.length = 5 := by
      simp only [List.length_cons] at hlen; omega
    have hi5 : i < 5 := by omega
    have hia : i < answer.length := by omega
    obtain ⟨w, hw⟩ : ∃ w, answer[i]? = some w :=
      ⟨answer[i], List.getElem?_eq_getElem hia⟩
    have hrc := hrel c
    have hset : ∀ st : LetterStatus,
        (statuses.set i st).take (i + 1) = statuses.take i ++ [st] :=
      fun st => take_set_succ statuses i st (by omega)
    have hstset : ∀ st : LetterStatus, (statuses.set i st).length = 5 := by
      intro st; simpa using hst
    cases hmc : m c with
    | none =>
      have hr0 : r c = 0 := by rw [← hrc, hmc]; rfl
      simp only [guess_loop, check_letter, hi5, if_true, hmc]
      rw [ih (i + 1) m r (statuses.set i NotInWord) hrel hlen' (hstset _)]
      simp [refScan, hr0, hset]
    | some count =>
      have hrcount : r c = count := by rw [← hrc, hmc]; rfl
      by_cases hc0 : count = 0
      · subst hc0
        simp only [guess_loop, check_letter, hi5, if_true, hmc, if_pos rfl]
        rw [ih (i + 1) m r (statuses.set i NotInWord) hrel hlen' (hstset _)]
        simp [refScan, hrcount, hset]
      · have hrel' : ∀ x,
            ((fun x => if x = c then some (count - 1) else m x) x).getD 0
              = (fun x => if x = c then r c - 1 else r x) x := by
          intro x
          by_cases hx : x = c
          · simp [hx, hrcount]
          · simp [hx, hrel x]
        by_cases hcw : c = w
        · subst hcw
          simp only [guess_loop, check_letter, hi5, if_true, hmc, if_neg hc0,
            hw, if_pos rfl]
          rw [ih (i + 1) _ _ (statuses.set i Correct) hrel' hlen' (hstset _)]
          have hsc : answer[i]? = some c := hw
          simp [refScan, hrcount, hc0, hsc, hset]
        · have hne : answer[i]? ≠ some c := by
            rw [hw]; intro hcon
            exact hcw (Option.some.inj hcon).symm
          simp only [guess_loop, check_letter, hi5, if_true, hmc, if_neg hc0,
            hw, if_neg hcw]
          rw [ih (i + 1) _ _ (statuses.set i InWord) hrel' hlen' (hstset _)]
          simp [refScan, hrcount, hc0, hne, hset]

/-- The scoring section of `Wordle::guess` computes exactly the reference
score of the spec, for 5-character secret and guess. -/
theorem score_eq_refScore (S G : List Char) (hS : S.length = 5)
    (hG : G.length = 5) : score S G = some (refScore S G) := by
  unfold score refScore
  rw [guess_loop_eq_refScan S hS G 0 (letter_count S) (fun c => S.count c)
    (List.replicate 5 NotInWord) (fun c => letter_count_getD S c)
    (by simpa using hG) (by simp)]
  simp

/-- A valid guess (5 characters, no whitespace, in the vocabulary, secret
chosen and 5 characters long) is scored: `guess` returns `Ok` of the
reference score. -/
theorem guess_eq_ok (w : Wordle) (S G : List Char) (hw : w.word = some S)
    (hS : S.length = 5) (hG : G.length = 5)
    (hws : split_whitespace_count G = 1) (hmem : G ∈ w.guesses) :
    w.guess G = some (Except.ok (refScore S G)) := by
  unfold Wordle.guess
  rw [hw]
  simp [hws, hG, hS, hmem, score_eq_refScore S G hS hG]

/-- A well-formed guess absent from the vocabulary is rejected: `guess`
returns `Err(())`. -/
theorem guess_eq_err (w : Wordle) (S G : List Char) (hw : w.word = some S)
    (hS : S.length = 5) (hG : G.length = 5)
    (hws : split_whitespace_count G = 1) (hmem : G ∉ w.guesses) :
    w.guess G = some (Except.error ()) := by
  unfold Wordle.guess
  rw [hw]
  simp [hws, hG, hS, hmem]

/-- In the reference scan, the number of positions whose guess letter is `L`
and whose status is not `NotInWord` is bounded by the remaining count of
`L`. -/
theorem refScan_credit (secret : List Char) (L : Char) :
    ∀ (cs : List Char) (i : Nat) (rem : Char → Nat),
      creditCount L cs (refScan secret cs i rem) ≤ rem L := by
  intro cs
  induction cs with
  | nil => intro i rem; simp [refScan, creditCount]
  | cons c rest ih =>
    intro i rem
    by_cases h0 : rem c = 0
    · simp only [refScan, if_pos h0, creditCount]
      have hhead : ¬(c = L ∧ (NotInWord : LetterStatus) ≠ NotInWord) := by
        simp
      rw [if_neg hhead]
      simpa using ih (i + 1) rem
    · simp only [refScan, if_neg h0, creditCount]
      have hhead : (if secret[i]? = some c then Correct else InWord)
          ≠ NotInWord := by
        split <;> simp
      by_cases hcL : c = L
      · subst hcL
        have hrec : creditCount c rest (refScan secret rest (i + 1)
            (fun x => if x = c then rem c - 1 else rem x)) ≤ rem c - 1 := by
          simpa using ih (i + 1) (fun x => if x = c then rem c - 1 else rem x)
        rw [if_pos ⟨rfl, hhead⟩]
        omega
      · have hrec : creditCount L rest (refScan secret rest (i + 1)
            (fun x => if x = c then rem c - 1 else rem x)) ≤ rem L := by
          simpa [Ne.symm hcL]
            using ih (i + 1) (fun x => if x = c then rem c - 1 else rem x)
        rw [if_neg (by simp [hcL])]
        simpa using hrec

/-- Soundness of the reference scan: a `Correct` status at position `j`
means the guess and secret letters at that position agree, and an `InWord`
status means they disagree while the guess letter occurs in the secret. -/
theorem refScan_sound (secret : List Char) :
    ∀ (cs : List Char) (i : Nat) (rem : Char → Nat),
      (∀ c, rem c ≤ secret.count c) →
      ∀ j,
        ((refScan secret cs i rem)[j]? = some Correct →
          ∃ c, cs[j]? = some c ∧ secret[i + j]? = some c) ∧
        ((refScan secret cs i rem)[j]? = some InWord →
          ∃ c, cs[j]? = some c ∧ secret[i + j]? ≠ some c ∧ c ∈ secret) := by
  intro cs
  induction cs with
  | nil => intro i rem hrem j; simp [refScan]
  | cons c rest ih =>
    intro i rem hrem j
    by_cases h0 : rem c = 0
    · cases j with
      | zero => simp [refScan, if_pos h0]
      | succ j =>
        have harith : i + (j + 1) = (i + 1) + j := by omega
        rw [harith]
        simpa [refScan, if_pos h0] using ih (i + 1) rem hrem j
    · have hrem' : ∀ x, (fun x => if x = c then rem c - 1 else rem x) x
          ≤ secret.count x := by
        intro x
        by_cases hx : x = c
        · subst hx; simp only [if_pos rfl]; exact le_trans (Nat.sub_le _ _) (hrem x)
        · simp only [if_neg hx]; exact hrem x
      cases j with
      | zero =>
        constructor
        · intro hc
          simp only [refScan, if_neg h0, List.getElem?_cons_zero,
            Option.some.injEq] at hc
          by_cases hsc : secret[i]? = some c
          · exact ⟨c, by simp, by simpa using hsc⟩
          · rw [if_neg hsc] at hc; cases hc
        · intro hiw
          simp only [refScan, if_neg h0, List.getElem?_cons_zero,
            Option.some.injEq] at hiw
          by_cases hsc : secret[i]? = some c
          · rw [if_pos hsc] at hiw; cases hiw
          · refine ⟨c, by simp, by simpa using hsc, ?_⟩
            have := hrem c
            exact List.count_pos_iff.mp (by omega)
      | succ j =>
        have harith : i + (j + 1) = (i + 1) + j := by omega
        rw [harith]
        simpa [refScan, if_neg h0]
          using ih (i + 1) (fun x => if x = c then rem c - 1 else rem x) hrem' j

/-- In the reference scan, a position where guess and secret agree is marked
`Correct` provided the occurrences of its letter are not exhausted by the
earlier guess positions: fewer occurrences of the letter appear before
position `j` in the guess than remain in the counts. -/
theorem refScan_correct_of_unstarved (secret : List Char) :
    ∀ (cs : List Char) (i : Nat) (rem : Char → Nat) (j : Nat) (c : Char),
      cs[j]? = some c → secret[i + j]? = some c →
      (cs.take j).count c < rem c →
      (refScan secret cs i rem)[j]? = some Correct := by
  intro cs
  induction cs with
  | nil => intro i rem j c hg _ _; simp at hg
  | cons c0 rest ih =>
    intro i rem j c hg hs hcount
    cases j with
    | zero =>
      have hc0 : c0 = c := by simpa using hg
      subst hc0
      have h0 : rem c0 ≠ 0 := by simp at hcount; omega
      have hsc : secret[i]? = some c0 := by simpa using hs
      simp [refScan, h0, hsc]
    | succ j =>
      have harith : i + (j + 1) = (i + 1) + j := by omega
      rw [List.getElem?_cons_succ] at hg
      rw [harith] at hs
      rw [List.take_succ_cons, List.count_cons] at hcount
      by_cases h0 : rem c0 = 0
      · have hc0c : ¬(c0 == c) := by
          intro hb
          have : c0 = c := by simpa using hb
          subst this
          omega
        rw [if_neg hc0c] at hcount
        simp only [refScan, if_pos h0, List.getElem?_cons_succ]
        exact ih (i + 1) rem j c hg hs (by omega)
      · simp only [refScan, if_neg h0, List.getElem?_cons_succ]
        apply ih (i + 1) (fun x => if x = c0 then rem c0 - 1 else rem x) j c hg hs
        by_cases hcc : c = c0
        · subst hcc
          simp only [beq_self_eq_true, if_true] at hcount
          rw [if_pos rfl]
          omega
        · have hb : ¬(c0 == c) := by simpa using fun h => hcc h.symm
          rw [if_neg hb] at hcount
          rw [if_neg hcc]
          omega

/-! ## Concrete words and sessions -/

/-- The secret word "aabcd" of the §8 scenarios. -/
def wordAabcd : List Char := ['a', 'a', 'b', 'c', 'd']

/-- The guess "abacd" of §8 scenario 3. -/
def wordAbacd : List Char := ['a', 'b', 'a', 'c', 'd']

/-- The guess "axbcd" of §8 scenario 4. -/
def wordAxbcd : List Char := ['a', 'x', 'b', 'c', 'd']

/-- The secret word "abcde" of §8 scenario 5. -/
def wordAbcde : List Char := ['a', 'b', 'c', 'd', 'e']

/-- The guess "xbcaa" of §8 scenario 5. -/
def wordXbcaa : List Char := ['x', 'b', 'c', 'a', 'a']

/-- The secret "xaxxx": one occurrence of a, at position 1. -/
def secretStarve : List Char := ['x', 'a', 'x', 'x', 'x']

/-- The guess "aaxxx": a misplaced a at position 0 before the correctly
placed a at position 1. -/
def guessStarve : List Char := ['a', 'a', 'x', 'x', 'x']

/-- A session whose chosen secret is `secretStarve` and whose guess
vocabulary holds `guessStarve`. -/
def sessionStarve : Wordle :=
  { guesses := [guessStarve], answers := [secretStarve], word := some secretStarve }

/-- A session whose chosen secret is "aabcd" and whose guess vocabulary
holds "abacd" and "abcde". -/
def sessionDemo : Wordle :=
  { guesses := [wordAbacd, wordAbcde], answers := [wordAabcd], word := some wordAabcd }

/-! ## Claims -/

/-- C1, counterexample: in `sessionStarve` the guess and the secret share
the letter a at position 1 and every precondition of the claim holds, yet
`guess` marks position 1 `NotInWord` rather than `Correct`: the earlier
misplaced a at position 0 claims the single occurrence of a and starves the
correctly-placed duplicate. -/
theorem starved_duplicate_counterexample :
    guessStarve.length = 5 ∧ secretStarve.length = 5
      ∧ split_whitespace_count guessStarve = 1
      ∧ guessStarve ∈ sessionStarve.guesses
      ∧ sessionStarve.word = some secretStarve
      ∧ guessStarve[1]? = some 'a' ∧ secretStarve[1]? = some 'a'
      ∧ sessionStarve.guess guessStarve
          = some (Except.ok [InWord, NotInWord, Correct, Correct, Correct])
      ∧ ([InWord, NotInWord, Correct, Correct, Correct] : List LetterStatus)[1]?
          ≠ some Correct :=
  ⟨rfl, rfl, rfl, by decide, rfl, rfl, rfl, rfl, by decide⟩

/-- C1, amended: for every secret S and guess G of 5 characters with no
whitespace, G in the guesses vocabulary and S the chosen secret, a position
i at which G and S share a letter is marked `Correct` by `guess` provided
the occurrences of that letter in S are not exhausted by the earlier guess
positions (fewer occurrences of the letter strictly before position i in G
than in all of S); an earlier misplaced occurrence can otherwise starve a
correctly-placed duplicate. -/
theorem correct_position_marked_unless_starved (w : Wordle) (S G : List Char)
    (hw : w.word = some S) (hS : S.length = 5) (hG : G.length = 5)
    (hws : split_whitespace_count G = 1) (hmem : G ∈ w.guesses)
    (i : Nat) (c : Char) (hgi : G[i]? = some c) (hsi : S[i]? = some c)
    (hfree : (G.take i).count c < S.count c) :
    ∃ sts, w.guess G = some (Except.ok sts) ∧ sts[i]? = some Correct := by
  refine ⟨refScore S G, guess_eq_ok w S G hw hS hG hws hmem, ?_⟩
  exact refScan_correct_of_unstarved S G 0 (fun x => S.count x) i c hgi
    (by simpa using hsi) hfree

/-- C1, amended, witness at a concrete input: in `sessionDemo` (secret
"aabcd") the guess "abacd" shares the letter a with the secret at position
0, no earlier position exists, and position 0 is marked `Correct`. -/
theorem correct_position_marked_unless_starved_witness :
    ∃ sts, sessionDemo.guess wordAbacd = some (Except.ok sts)
      ∧ sts[0]? = some Correct :=
  correct_position_marked_unless_starved sessionDemo wordAabcd wordAbacd
    rfl rfl rfl rfl (by decide) 0 'a' rfl rfl (by decide)

/-- C2: for every 5-character secret S and 5-character whitespace-free guess
G in the guesses vocabulary, with S the chosen secret, `guess` returns
exactly the reference computation of the spec: per-letter remaining counts
built from S, scanned left to right with NotInWord on an exhausted count and
claim-then-compare otherwise. -/
theorem guess_matches_reference_scorer (w : Wordle) (S G : List Char)
    (hw : w.word = some S) (hS : S.length = 5) (hG : G.length = 5)
    (hws : split_whitespace_count G = 1) (hmem : G ∈ w.guesses) :
    w.guess G = some (Except.ok (refScore S G)) :=
  guess_eq_ok w S G hw hS hG hws hmem

/-- C2, witness at a concrete input. -/
theorem guess_matches_reference_scorer_witness :
    sessionDemo.guess wordAbacd
      = some (Except.ok (refScore wordAabcd wordAbacd)) :=
  guess_matches_reference_scorer sessionDemo wordAabcd wordAbacd
    rfl rfl rfl rfl (by decide)

/-- C3: for every secret S and guess G of 5 characters and every letter L,
in the status sequence produced by scoring G against S the number of
positions whose guess letter is L and whose status is Correct or InWord
never exceeds the number of occurrences of L in S. -/
theorem credited_positions_bounded_by_count (S G : List Char)
    (hS : S.length = 5) (hG : G.length = 5) (sts : List LetterStatus)
    (hsc : score S G = some sts) (L : Char) :
    creditCount L G sts ≤ S.count L := by
  rw [score_eq_refScore S G hS hG] at hsc
  obtain rfl : refScore S G = sts := Option.some.inj hsc
  exact refScan_credit S L G 0 (fun x => S.count x)

/-- C3, witness at a concrete input: guessing "abacd" against "aabcd"
credits the letter a twice, which does not exceed its two occurrences. -/
theorem credited_positions_bounded_by_count_witness :
    creditCount 'a' wordAbacd [Correct, InWord, InWord, Correct, Correct]
      ≤ wordAabcd.count 'a' :=
  credited_positions_bounded_by_count wordAabcd wordAbacd rfl rfl _ rfl 'a'

/-- C4: the three §8 duplicate-letter scenarios score exactly as stated:
"abacd" against "aabcd" gives [Correct, InWord, InWord, Correct, Correct],
"axbcd" against "aabcd" gives [Correct, NotInWord, Correct, Correct,
Correct], "xbcaa" against "abcde" gives [NotInWord, Correct, Correct,
InWord, NotInWord]. -/
theorem duplicate_letter_scenarios :
    score wordAabcd wordAbacd
        = some [Correct, InWord, InWord, Correct, Correct]
      ∧ score wordAabcd wordAxbcd
        = some [Correct, NotInWord, Correct, Correct, Correct]
      ∧ score wordAbcde wordXbcaa
        = some [NotInWord, Correct, Correct, InWord, NotInWord] :=
  ⟨rfl, rfl, rfl⟩

/-- C5: under the preconditions (5-character whitespace-free guess, chosen
5-character secret), `guess` returns the `InvalidGuess` failure if and only
if the word is not a member of the guesses vocabulary, and for a member it
returns the Scorer's status sequence for the current secret and the word. -/
theorem invalid_guess_iff_not_in_vocabulary (w : Wordle) (S G : List Char)
    (hw : w.word = some S) (hS : S.length = 5) (hG : G.length = 5)
    (hws : split_whitespace_count G = 1) :
    (w.guess G = some (Except.error ()) ↔ G ∉ w.guesses)
    ∧ (G ∈ w.guesses → w.guess G = Option.map Except.ok (score S G)) := by
  have hvalid : G ∈ w.guesses → w.guess G = Option.map Except.ok (score S G) := by
    intro hmem
    rw [guess_eq_ok w S G hw hS hG hws hmem, score_eq_refScore S G hS hG]
    rfl
  refine ⟨⟨?_, guess_eq_err w S G hw hS hG hws⟩, hvalid⟩
  intro herr hmem
  rw [guess_eq_ok w S G hw hS hG hws hmem] at herr
  exact Except.noConfusion (Option.some.inj herr)

/-- C5, witness at concrete inputs: in `sessionDemo` the out-of-vocabulary
word "xbcaa" is rejected and the in-vocabulary word "abacd" is scored. -/
theorem invalid_guess_iff_not_in_vocabulary_witness :
    ((sessionDemo.guess wordXbcaa = some (Except.error ())
        ↔ wordXbcaa ∉ sessionDemo.guesses)
      ∧ (wordXbcaa ∈ sessionDemo.guesses →
          sessionDemo.guess wordXbcaa
            = Option.map Except.ok (score wordAabcd wordXbcaa)))
    ∧ ((sessionDemo.guess wordAbacd = some (Except.error ())
        ↔ wordAbacd ∉ sessionDemo.guesses)
      ∧ (wordAbacd ∈ sessionDemo.guesses →
          sessionDemo.guess wordAbacd
            = Option.map Except.ok (score wordAabcd wordAbacd))) :=
  ⟨invalid_guess_iff_not_in_vocabulary sessionDemo wordAabcd wordXbcaa
      rfl rfl rfl rfl,
    invalid_guess_iff_not_in_vocabulary sessionDemo wordAabcd wordAbacd
      rfl rfl rfl rfl⟩

/-- C6: a call to `guess` with a well-formed word absent from the guesses
vocabulary returns `InvalidGuess` and leaves the session unchanged — same
secret word, same guesses set, same answers sequence — so a subsequent
guess in the same round behaves exactly as before the rejected call. -/
theorem invalid_guess_preserves_session (w : Wordle) (S G : List Char)
    (hw : w.word = some S) (hS : S.length = 5) (hG : G.length = 5)
    (hws : split_whitespace_count G = 1) (hmem : G ∉ w.guesses) :
    w.guessCall G = (some (Except.error ()), w)
    ∧ (w.guessCall G).2.word = some S
    ∧ (w.guessCall G).2.guesses = w.guesses
    ∧ (w.guessCall G).2.answers = w.answers
    ∧ ∀ G2, ((w.guessCall G).2).guess G2 = w.guess G2 := by
  refine ⟨?_, hw, rfl, rfl, fun G2 => rfl⟩
  unfold Wordle.guessCall
  rw [guess_eq_err w S G hw hS hG hws hmem]

/-- C6, witness at a concrete input: "xbcaa" is not in `sessionDemo`'s
vocabulary; the call is rejected and the session survives unchanged. -/
theorem invalid_guess_preserves_session_witness :
    sessionDemo.guessCall wordXbcaa = (some (Except.error ()), sessionDemo)
    ∧ (sessionDemo.guessCall wordXbcaa).2.word = some wordAabcd
    ∧ (sessionDemo.guessCall wordXbcaa).2.guesses = sessionDemo.guesses
    ∧ (sessionDemo.guessCall wordXbcaa).2.answers = sessionDemo.answers
    ∧ ∀ G2, ((sessionDemo.guessCall wordXbcaa).2).guess G2
        = sessionDemo.guess G2 :=
  invalid_guess_preserves_session sessionDemo wordAabcd wordXbcaa
    rfl rfl rfl rfl (by decide)

/-- C7: every `choose_word` call (for any value of the random draw) sets the
current secret to some element of the answers sequence, overwriting any
previously chosen secret; the chosen element then persists across `guess`
calls. -/
theorem choose_word_selects_answer (w : Wordle) (pick : Nat)
    (h : w.answers ≠ []) :
    ∃ a, a ∈ w.answers
      ∧ w.choose_word pick = some { w with word := some a }
      ∧ ∀ G, (({ w with word := some a } : Wordle).guessCall G).2.word
          = some a := by
  have hlen : 0 < w.answers.length := List.length_pos.mpr h
  have hlt : pick % w.answers.length < w.answers.length := Nat.mod_lt _ hlen
  refine ⟨w.answers[pick % w.answers.length], List.getElem_mem hlt, ?_,
    fun G => rfl⟩
  unfold Wordle.choose_word
  rw [List.getElem?_eq_getElem hlt]

/-- C7, witness at a concrete input: choosing a word in `sessionStarve`
(previous secret already set) selects the single answer and overwrites. -/
theorem choose_word_selects_answer_witness :
    ∃ a, a ∈ sessionStarve.answers
      ∧ sessionStarve.choose_word 7 = some { sessionStarve with word := some a }
      ∧ ∀ G, (({ sessionStarve with word := some a } : Wordle).guessCall G).2.word
          = some a :=
  choose_word_selects_answer sessionStarve 7 (by decide)

/-- C8: constructing a session fails exactly when one of the vocabularies is
empty; with both non-empty it succeeds, stores the vocabularies, and leaves
the current secret absent. -/
theorem new_session_requires_nonempty_vocabularies (g a : List (List Char)) :
    (Wordle.new g a = none ↔ g = [] ∨ a = [])
    ∧ (g ≠ [] → a ≠ [] →
        Wordle.new g a = some { guesses := g, answers := a, word := none }) := by
  unfold Wordle.new
  by_cases hg : g.isEmpty <;> by_cases ha : a.isEmpty <;>
    simp_all [List.isEmpty_iff]

/-- C8, witness at concrete inputs. -/
theorem new_session_requires_nonempty_vocabularies_witness :
    (Wordle.new [wordAbacd] [wordAabcd] = none
        ↔ [wordAbacd] = [] ∨ [wordAabcd] = [])
    ∧ ([wordAbacd] ≠ ([] : List (List Char)) → [wordAabcd] ≠ ([] : List (List Char)) →
        Wordle.new [wordAbacd] [wordAabcd]
          = some { guesses := [wordAbacd], answers := [wordAabcd], word := none }) :=
  new_session_requires_nonempty_vocabularies [wordAbacd] [wordAabcd]

/-- C9: `guess` takes the session by shared borrow; for every input word,
valid or not, the session after the call — secret, guesses and answers —
is the receiver unchanged. -/
theorem guess_never_mutates_session (w : Wordle) (G : List Char) :
    (w.guessCall G).2 = w :=
  rfl

/-- C10: in every status sequence returned by a successful `guess` call, a
position marked `Correct` carries the same letter in guess and secret, and a
position marked `InWord` carries a guess letter that differs from the
secret's letter there yet occurs somewhere in the secret. -/
theorem returned_statuses_sound (w : Wordle) (S G : List Char)
    (hw : w.word = some S) (hS : S.length = 5) (hG : G.length = 5)
    (hws : split_whitespace_count G = 1) (sts : List LetterStatus)
    (hok : w.guess G = some (Except.ok sts)) (i : Nat) :
    (sts[i]? = some Correct → ∃ c, G[i]? = some c ∧ S[i]? = some c)
    ∧ (sts[i]? = some InWord →
        ∃ c, G[i]? = some c ∧ S[i]? ≠ some c ∧ c ∈ S) := by
  by_cases hmem : G ∈ w.guesses
  · rw [guess_eq_ok w S G hw hS hG hws hmem] at hok
    obtain rfl : refScore S G = sts :=
      Except.ok.inj (Option.some.inj hok)
    have := refScan_sound S G 0 (fun x => S.count x) (fun x => le_refl _) i
    simpa using this
  · rw [guess_eq_err w S G hw hS hG hws hmem] at hok
    exact Except.noConfusion (Option.some.inj hok)

/-- C10, witness at a concrete input: scoring "abacd" against "aabcd", the
`InWord` at position 1 carries the letter b, absent from secret position 1
yet present in the secret. -/
theorem returned_statuses_sound_witness :
    (([Correct, InWord, InWord, Correct, Correct] : List LetterStatus)[1]?
        = some Correct →
      ∃ c, wordAbacd[1]? = some c ∧ wordAabcd[1]? = some c)
    ∧ (([Correct, InWord, InWord, Correct, Correct] : List LetterStatus)[1]?
        = some InWord →
      ∃ c, wordAbacd[1]? = some c ∧ wordAabcd[1]? ≠ some c ∧ c ∈ wordAabcd) :=
  returned_statuses_sound sessionDemo wordAabcd wordAbacd rfl rfl rfl rfl
    [Correct, InWord, InWord, Correct, Correct] rfl 1

end WordleClone
